import Mathlib

/-!
Verification development for the sz archive transcoder (sz.go).

The Go source is shallowly embedded: byte streams are List Nat, Go strings
are List Char, the filesystem is an explicit existence predicate, and the
per-operation mutable state (the hardlink table, the snappy writer) is passed
explicitly. Machine integers are Nat with explicit truncation where the source
truncates. The snappy codec itself lives in an external library; its framing
is modelled from the spec (marked below), while every other definition is a
direct translation of the corresponding Go function.
-/

set_option maxHeartbeats 1000000

namespace Sz

/-- Go strings are modelled as lists of characters. -/
abbrev Str := List Char

/-! ## FormatSniffer: isSz and isTar (sz.go lines 261-293) -/

/-- Snappy stream signature, the 10 bytes checked by isSz (szSig in the source). -/
def szSig : List Nat := [255, 6, 0, 0, 115, 78, 97, 80, 112, 89]

/-- Tar signature, the 5 bytes at offset 257 checked by isTar (tarSig in the source). -/
def tarSig : List Nat := [117, 115, 116, 97, 114]

/-- Model of file.ReadAt(buf, off): the bytes actually read, at most len of them.
The returned count n in Go equals the length of this list. -/
def readAt (file : List Nat) (off len : Nat) : List Nat :=
  (file.drop off).take len

/-- Translation of isSz: read 10 bytes at offset 0, return false on a short
read (the error is discarded in the source), otherwise compare with szSig. -/
def isSz (file : List Nat) : Bool :=
  let bs := readAt file 0 10
  if bs.length < 10 then false
  else bs == szSig

/-- Translation of isTar: read 5 bytes at offset 257, return false on a short
read, otherwise compare with tarSig. -/
def isTar (file : List Nat) : Bool :=
  let bs := readAt file 257 5
  if bs.length < 5 then false
  else bs == tarSig

/-! ## StreamCodec model (snap, snapSafe, unsnap; sz.go lines 451-627)

The snappy library (github.com/golang/snappy) is not part of this repository,
so the codec is modelled from the spec: a block-based format in which every
Write call is split into blocks of at most 65536 bytes, each block is emitted
with a 3-byte length header, and the whole stream is preceded by the fixed
10-byte signature. Nothing is written at all when no data is written (the
library emits its header lazily on the first write). Decoding parses the
signature and then the block sequence. -/

/-- Worker for chunksOf, structurally recursive on fuel. -/
def chunksOfGo (n : Nat) : Nat → List Nat → List (List Nat)
  | _, [] => []
  | 0, _ :: _ => []
  | fuel + 1, x :: xs => ((x :: xs).take n) :: chunksOfGo n fuel ((x :: xs).drop n)

/-- Modelled from the spec: splitting a byte sequence into maximal blocks of at
most n bytes, as the snappy writer does with n = 65536 for each Write call. -/
def chunksOf (n : Nat) (xs : List Nat) : List (List Nat) :=
  chunksOfGo n xs.length xs

/-- Modelled from the spec: one encoded block — a 3-byte little-endian length
header followed by the block body (the missing snappy library compresses the
body; content-wise the block decodes back to the body either way). -/
def encodeChunk (c : List Nat) : List Nat :=
  c.length % 256 :: c.length / 256 % 256 :: c.length / 65536 % 256 :: c

/-- Modelled from the spec: the full compressed stream produced by a sequence
of Write calls — the signature followed by every block of every write, or the
empty stream when no byte was ever written. -/
def szEncodeWrites (writes : List (List Nat)) : List Nat :=
  if writes.flatMap (chunksOf 65536) = [] then []
  else szSig ++ (writes.flatMap (chunksOf 65536)).flatMap encodeChunk

/-- Worker for szDecode: parse the block sequence, one unit of fuel per block. -/
def decodeGo : Nat → List Nat → Option (List Nat)
  | _, [] => some []
  | 0, _ :: _ => none
  | fuel + 1, a :: b :: c :: rest =>
      if a + 256 * b + 65536 * c = 0 then none
      else if rest.length < a + 256 * b + 65536 * c then none
      else
        match decodeGo fuel (rest.drop (a + 256 * b + 65536 * c)) with
        | none => none
        | some t => some (rest.take (a + 256 * b + 65536 * c) ++ t)
  | _ + 1, _ => none

/-- Modelled from the spec: decompression of a stream — the empty stream
decodes to no bytes (the reader sees immediate end of stream), otherwise the
signature is required and the block sequence is decoded. -/
def szDecode (bs : List Nat) : Option (List Nat) :=
  if bs = [] then some []
  else if szSig.isPrefixOf bs then decodeGo bs.length (bs.drop 10)
  else none

/-- Content written by a successful snap run: the whole source is read into
memory (ReadAll from the start of the file) and written through the snappy
writer in a single Write call (sz.go lines 492-510). -/
def snapContent (src : List Nat) : List Nat :=
  szEncodeWrites [src]

/-- Content written by a snapSafe run on a fresh handle: io.Copy through the
bufio writer feeds the snappy writer incrementally, so the source arrives as a
sequence of bounded Write calls (32768 is the io.Copy transfer granularity;
the 4096-byte bufio buffer passes larger writes straight through). -/
def snapSafeContent (src : List Nat) : List Nat :=
  szEncodeWrites (chunksOf 32768 src)

/-- Model of an open file handle: contents plus the current read offset.
ReadAt (used by the sniffers) does not move the offset; ReadAll and io.Copy
consume from the offset and leave it at end of file. -/
structure FileState where
  contents : List Nat
  pos : Nat

/-- Model of ioutil.ReadAll on a handle: the bytes from the current offset to
the end, leaving the offset at end of file. -/
def readAllFrom (f : FileState) : List Nat × FileState :=
  (f.contents.drop f.pos, { contents := f.contents, pos := f.contents.length })

/-- Content written by snapSafe when invoked on a given handle: io.Copy starts
at the current offset of the handle, without any seek (sz.go line 569). -/
def snapSafeContentFrom (f : FileState) : List Nat :=
  szEncodeWrites (chunksOf 32768 (f.contents.drop f.pos))

/-- Content of the destination produced by the deferred fallback inside snap
when the compression write fails: snap has already run ReadAll on the source
handle, moving its offset to end of file, and the deferred snapSafe call then
copies from that same exhausted handle (sz.go lines 482-492 and 569). -/
def snapFallbackContent (src : List Nat) : List Nat :=
  let f0 : FileState := { contents := src, pos := 0 }
  let r := readAllFrom f0
  snapSafeContentFrom r.2

/-- Content of the file produced by unsnap: the compressed source is streamed
through the snappy reader into the destination (sz.go lines 611-626). -/
def unsnapContent (archive : List Nat) : Option (List Nat) :=
  szDecode archive

/-! ## Error flow of snap, snapSafe and the analyze compression branch
(sz.go lines 234-245, 460-515, 521-579)

Each step that can fail in the source is given an injectable failure flag; the
control flow, including the two deferred functions and the retry in analyze,
is translated directly. A destination handle is Option Unit: none models the
nil *os.File returned by a failed Stat, create or reopen. -/

/-- Identities of the errors each failing step produces. -/
inductive CErr
  | fastStat | fastCreate | fastRead | fastWrite | fastReopen
  | safeStat | safeCreate | safeCopy | safeFlush | safeReopen
  deriving DecidableEq

/-- Errors originating in the safe path snapSafe. -/
def CErr.isSafe : CErr → Bool
  | .safeStat | .safeCreate | .safeCopy | .safeFlush | .safeReopen => true
  | _ => false

/-- Failure injection: which steps of snap and snapSafe fail in this run. -/
structure SnapEnv where
  fastStatFails : Bool
  fastCreateFails : Bool
  fastReadFails : Bool
  fastWriteFails : Bool
  fastReopenFails : Bool
  safeStatFails : Bool
  safeCreateFails : Bool
  safeCopyFails : Bool
  safeFlushFails : Bool
  safeReopenFails : Bool
  deriving DecidableEq

/-- Translation of the snapSafe control flow: Stat, create, io.Copy, Flush in
order; the deferred reopen runs only when no error occurred, and a failed
reopen returns a nil handle together with the reopen error. On a copy or
flush failure the created destination handle is returned with the error. -/
def snapSafeRun (env : SnapEnv) : Option Unit × Option CErr :=
  if env.safeStatFails then (none, some .safeStat)
  else if env.safeCreateFails then (none, some .safeCreate)
  else if env.safeCopyFails then (some (), some .safeCopy)
  else if env.safeFlushFails then (some (), some .safeFlush)
  else if env.safeReopenFails then (none, some .safeReopen)
  else (some (), none)

/-- Translation of the snap control flow. Stat and create failures return
before the deferred fallback is installed, so they surface the fast-path
error directly. Once the destination exists, any body failure (ReadAll or the
compression write) makes the deferred function call snapSafe on the same
source and return its result; a clean body runs the reopen instead. The Nat
component counts how many times snapSafe was attempted inside snap. -/
def snapRun (env : SnapEnv) : Option Unit × Option CErr × Nat :=
  if env.fastStatFails then (none, some .fastStat, 0)
  else if env.fastCreateFails then (none, some .fastCreate, 0)
  else
    let bodyErr : Option CErr :=
      if env.fastReadFails then some .fastRead
      else if env.fastWriteFails then some .fastWrite
      else none
    match bodyErr with
    | none =>
        if env.fastReopenFails then (none, some .fastReopen, 0)
        else (some (), none, 0)
    | some _ =>
        let r := snapSafeRun env
        (r.1, r.2, 1)

/-- Observable outcome of the compression branch of analyze. -/
inductive COutcome
  | ok
  | errOut (e : CErr)
  | panicked
  deriving DecidableEq

/-- Translation of the default branch of analyze (sz.go lines 234-245): run
snap; on error call sz.Name() to remove the partial output — a nil handle
makes that call panic — then retry snapSafe and surface only its error. The
Nat component is the total number of snapSafe attempts. -/
def analyzeCompress (env : SnapEnv) : COutcome × Nat :=
  let r := snapRun env
  match r.2.1 with
  | none => (.ok, r.2.2)
  | some _ =>
      match r.1 with
      | none => (.panicked, r.2.2)
      | some _ =>
          let s := snapSafeRun env
          match s.2 with
          | none => (.ok, r.2.2 + 1)
          | some e => (.errOut e, r.2.2 + 1)

/-- Predicate on outcomes: every error surfaced by the compression branch is
an error of the safe path (outcomes without a surfaced error hold trivially). -/
def surfacedErrIsSafe : COutcome → Bool
  | .errOut e => e.isSafe
  | _ => true

/-- Environment where only the initial Stat of the fast path fails. -/
def envFastStatFail : SnapEnv :=
  ⟨true, false, false, false, false, false, false, false, false, false⟩

/-- Environment where only the ReadAll of the fast path fails. -/
def envFastReadFail : SnapEnv :=
  ⟨false, false, true, false, false, false, false, false, false, false⟩

/-! ## NameAllocator: splitExt and genUnusedFilename (sz.go lines 406-449)

splitExt starts from filepath.Clean of its argument, so Clean is translated
from the Go standard library (path/filepath, unix rules, separator "/").
mime.TypeByExtension consults an environment-dependent table; it is modelled
as a Boolean parameter telling whether an extension maps to a known media
type, with the builtin Go table as a concrete instance. -/

/-- Path separator test (os.IsPathSeparator on unix). -/
def isSep (c : Char) : Bool := c == '/'

/-- Inner loop of the dotdot case of Clean: after one position was dropped,
keep dropping while above the dotdot mark and the char just dropped is not a
separator. The buffer is kept in reversed order. -/
def popAfter (dotdot : Nat) (dropped : Char) : Str → Str
  | [] => []
  | c :: rest =>
      if (c :: rest).length > dotdot ∧ ¬ (isSep dropped = true) then popAfter dotdot c rest
      else c :: rest

/-- Dotdot backtracking of Clean: drop one position unconditionally, then run
the inner loop. Called only when the buffer is longer than the dotdot mark. -/
def popTo (dotdot : Nat) : Str → Str
  | [] => []
  | c :: rest => popAfter dotdot c rest

/-- Main loop of filepath.Clean, translated case by case; the output buffer is
kept reversed, fuel is one unit per loop entry (every case consumes at least
one input char, so fuel equal to the input length suffices). -/
def cleanLoop : Nat → Str → Str → Bool → Nat → Str
  | 0, _, outRev, _, _ => outRev
  | _ + 1, [], outRev, _, _ => outRev
  | fuel + 1, c :: rest, outRev, rooted, dotdot =>
      if isSep c then cleanLoop fuel rest outRev rooted dotdot
      else if c == '.' && (match rest with | [] => true | c2 :: _ => isSep c2) then
        cleanLoop fuel rest outRev rooted dotdot
      else if c == '.' &&
          (match rest with
           | [] => false
           | c2 :: rest2 =>
               c2 == '.' && (match rest2 with | [] => true | c3 :: _ => isSep c3)) then
        let rest2 := rest.tail
        if outRev.length > dotdot then
          cleanLoop fuel rest2 (popTo dotdot outRev) rooted dotdot
        else if rooted = false then
          let out1 := if outRev.length > 0 then '/' :: outRev else outRev
          let out2 := '.' :: '.' :: out1
          cleanLoop fuel rest2 out2 rooted out2.length
        else
          cleanLoop fuel rest2 outRev rooted dotdot
      else
        let out1 :=
          if (rooted && outRev.length != 1) || (!rooted && outRev.length != 0) then
            '/' :: outRev
          else outRev
        let run := (c :: rest).takeWhile (fun x => !(isSep x))
        let rem2 := (c :: rest).dropWhile (fun x => !(isSep x))
        cleanLoop fuel rem2 (run.reverse ++ out1) rooted dotdot

/-- Translation of filepath.Clean for unix paths (volume length is zero and
FromSlash is the identity): empty input becomes a dot, a rooted path seeds
the buffer with the separator, and an empty result becomes a dot. -/
def clean (path : Str) : Str :=
  match path with
  | [] => ['.']
  | c :: rest =>
      let rooted := isSep c
      let res :=
        if rooted then cleanLoop path.length rest ['/'] true 1
        else cleanLoop path.length (c :: rest) [] false 0
      if res = [] then ['.'] else res.reverse

/-- Worker for filepath.Ext: scan the reversed path from the end, stopping at
a separator, returning from the last dot to the end. -/
def fpExtGo : Str → Str → Str
  | [], _ => []
  | c :: rest, acc =>
      if isSep c then []
      else if c == '.' then c :: acc
      else fpExtGo rest (c :: acc)

/-- Translation of filepath.Ext: the suffix from the final dot of the last
path element, empty when there is no dot. -/
def fpExt (p : Str) : Str := fpExtGo p.reverse []

/-- Translation of strings.TrimSuffix: drop the suffix when present. -/
def trimSuffix (s t : Str) : Str :=
  if t.isSuffixOf s then s.take (s.length - t.length) else s

/-- Fixed allow-list tested by the switch in splitExt: .tar, .sz, .tar.sz. -/
def szExtAllow (e : Str) : Bool :=
  e == ['.', 't', 'a', 'r'] || e == ['.', 's', 'z'] ||
    e == ['.', 't', 'a', 'r', '.', 's', 'z']

/-- Builtin extension table of the Go mime package (builtinTypesLower),
lowercased before lookup as TypeByExtension does; one concrete instance of
the environment-dependent media-type oracle. -/
def mimeBuiltin (ext : Str) : Bool :=
  let e := ext.map Char.toLower
  e == ['.', 'a', 'v', 'i', 'f'] || e == ['.', 'c', 's', 's'] ||
    e == ['.', 'g', 'i', 'f'] || e == ['.', 'h', 't', 'm'] ||
    e == ['.', 'h', 't', 'm', 'l'] || e == ['.', 'j', 'p', 'e', 'g'] ||
    e == ['.', 'j', 'p', 'g'] || e == ['.', 'j', 's'] ||
    e == ['.', 'j', 's', 'o', 'n'] || e == ['.', 'm', 'j', 's'] ||
    e == ['.', 'p', 'd', 'f'] || e == ['.', 'p', 'n', 'g'] ||
    e == ['.', 's', 'v', 'g'] || e == ['.', 'w', 'a', 's', 'm'] ||
    e == ['.', 'w', 'e', 'b', 'p'] || e == ['.', 'x', 'm', 'l']

/-- Loop of splitExt: take the extension of the current base; stop when it is
empty, or when it is neither a known media type nor on the allow-list (the
switch default returns); otherwise move it onto the extension chain and strip
it from the base. Fuel decreases once per iteration; the base shrinks by at
least one character per iteration, so length of base plus one suffices. -/
def splitExtGo (mimeKnown : Str → Bool) : Nat → Str → Str → Str × Str
  | 0, base, ext => (base, ext)
  | fuel + 1, base, ext =>
      let testext := fpExt base
      if testext = [] then (base, ext)
      else if mimeKnown testext = false ∧ szExtAllow testext = false then (base, ext)
      else splitExtGo mimeKnown fuel (trimSuffix base testext) (testext ++ ext)

/-- Translation of splitExt (sz.go lines 423-441): clean the filename, then
run the stripping loop with an empty extension chain. -/
def splitExt (mimeKnown : Str → Bool) (filename : Str) : Str × Str :=
  let base := clean filename
  splitExtGo mimeKnown (base.length + 1) base []

/-- Condition under which the source loop strips one more extension. -/
def strippable (mimeKnown : Str → Bool) (e : Str) : Bool :=
  mimeKnown e || szExtAllow e

/-- Characterization of the amended stripping rule: from a starting base the
loop reaches the returned pair by stripping extensions exactly while each is
a known media type or on the allow-list, stopping as soon as the extension is
empty or satisfies neither. -/
inductive SplitExtSpec (mimeKnown : Str → Bool) : Str → Str × Str → Prop
  | stop (base : Str)
      (h : fpExt base = [] ∨ strippable mimeKnown (fpExt base) = false) :
      SplitExtSpec mimeKnown base (base, [])
  | strip (base b e : Str)
      (hne : fpExt base ≠ [])
      (hs : strippable mimeKnown (fpExt base) = true)
      (ih : SplitExtSpec mimeKnown (trimSuffix base (fpExt base)) (b, e)) :
      SplitExtSpec mimeKnown base (b, e ++ fpExt base)

/-- Stripping condition as the claim words it: unrecognized as a known media
type OR on the allow-list. -/
def strippableClaim (mimeKnown : Str → Bool) (e : Str) : Bool :=
  !(mimeKnown e) || szExtAllow e

/-- Loop of the claim variant of splitExt, identical except for the
stripping condition. -/
def splitExtClaimGo (mimeKnown : Str → Bool) : Nat → Str → Str → Str × Str
  | 0, base, ext => (base, ext)
  | fuel + 1, base, ext =>
      let testext := fpExt base
      if testext = [] then (base, ext)
      else if strippableClaim mimeKnown testext = false then (base, ext)
      else splitExtClaimGo mimeKnown fuel (trimSuffix base testext) (testext ++ ext)

/-- Variant of splitExt following the words of the claim: strip trailing
extensions while each is either unrecognized as a known media type or one of
.tar, .sz, .tar.sz. -/
def splitExtClaim (mimeKnown : Str → Bool) (filename : Str) : Str × Str :=
  let base := clean filename
  splitExtClaimGo mimeKnown (base.length + 1) base []

/-- Worker for itoa: produce decimal digits most significant first. -/
def itoaGo : Nat → Nat → Str → Str
  | 0, _, acc => acc
  | fuel + 1, n, acc =>
      let d := Char.ofNat (48 + n % 10)
      if n < 10 then d :: acc else itoaGo fuel (n / 10) (d :: acc)

/-- Translation of strconv.Itoa for the nonnegative arguments used here. -/
def itoa (n : Nat) : Str := itoaGo (n + 1) n []

/-- Candidate name probed at index i: concat(base, "(", Itoa(i), ")", ext). -/
def testname (base ext : Str) (i : Nat) : Str :=
  base ++ '(' :: (itoa i ++ ')' :: ext)

/-- Probe loop of genUnusedFilename: try indices upward while the candidate
exists; when the fuel (the remaining loop iterations) runs out, the original
filename is left unchanged, exactly as the source loop falls through without
assigning. The filesystem is the existence predicate fs. -/
def genLoop (fs : Str → Bool) (base ext orig : Str) : Nat → Nat → Str
  | _, 0 => orig
  | i, fuel + 1 =>
      let t := testname base ext i
      if fs t then genLoop fs base ext orig (i + 1) fuel else t

/-- Translation of genUnusedFilename (sz.go lines 406-419): keep the name when
it does not exist; otherwise probe base(i)ext for i from 1 below the literal
bound 20091110230000, returning the first unused candidate, or the original
name when every candidate exists. -/
def genUnusedFilename (mimeKnown fs : Str → Bool) (filename : Str) : Str :=
  if fs filename then
    let be := splitExt mimeKnown filename
    genLoop fs be.1 be.2 filename 1 (20091110230000 - 1)
  else filename

/-! ## filter, slcHas and the flag handling (sz.go lines 85-125) -/

/-- Translation of slcHas: true when some element of slc equals some element
of args (two nested loops returning on the first match). -/
def slcHas (slc : List Str) (args : List Str) : Bool :=
  slc.any (fun s => args.any (fun a => s == a))

/-- Loop of filter over the elements of the input slice: the source tests
membership of each element s in slc itself — slcHas(slc, s) — not in args,
and keeps s only when that test fails. -/
def filterGo (slc : List Str) : List Str → List Str
  | [] => []
  | s :: rest =>
      if slcHas slc [s] then filterGo slc rest else s :: filterGo slc rest

/-- Translation of filter (sz.go lines 102-110): the args parameter is
received but never consulted by the body, which iterates over slc testing
slcHas(slc, s). -/
def filter (slc : List Str) (args : List Str) : List Str :=
  filterGo slc slc

/-- Translation of the target-file computation in flags (sz.go lines 84-97):
start from os.Args[1:]; return early when quiet mode is off and no archive
name was given; otherwise filter out the flag strings in quiet mode and the
archive name when one was given. -/
def flagsTrgtFiles (osArgs : List Str) (doQuiet : Bool) (dstArchive : Str) : List Str :=
  let trgt := osArgs.drop 1
  if doQuiet = false ∧ dstArchive = [] then trgt
  else
    let trgt1 := if doQuiet then filter trgt [['-', 's'], ['-', 'q']] else trgt
    let trgt2 := if dstArchive = [] then trgt1 else filter trgt1 [dstArchive]
    trgt2

/-! ## TarBuilder: tarAppender.add and the hardlink table
(sz.go lines 741-746 and 818-911) -/

/-- Filesystem entry kinds the walk distinguishes. -/
inductive FType
  | regular
  | dir
  | symlink
  | other
  deriving DecidableEq

/-- Tar member type flags used by the builder. -/
inductive TFlag
  | reg
  | dirf
  | link
  | sym
  | other
  deriving DecidableEq

/-- Metadata of one visited path, as Lstat plus the syscall stat deliver it:
kind, link count, inode and size. -/
structure WalkEntry where
  name : Str
  ftype : FType
  nlink : Nat
  inode : Nat
  size : Nat
  deriving DecidableEq

/-- One emitted archive member: header fields plus whether a body followed. -/
structure Member where
  name : Str
  typeflag : TFlag
  linkname : Str
  size : Nat
  hasBody : Bool
  deriving DecidableEq

/-- Type flag assigned by tar.FileInfoHeader from the file kind. -/
def flagOfType : FType → TFlag
  | .regular => .reg
  | .dir => .dirf
  | .symlink => .sym
  | .other => .other

/-- Translation of fmtDir: append the separator unless already present. -/
def fmtDir (name : Str) : Str :=
  if (['/'] : Str).isSuffixOf name then name else name ++ ['/']

/-- Lookup in the inode-to-name hardlink table (the Go map, represented as an
association list; keys are inserted at most once per build). -/
def lookupInode : List (Nat × Str) → Nat → Option Str
  | [], _ => none
  | kv :: rest, ino => if kv.1 = ino then some kv.2 else lookupInode rest ino

/-- Translation of tarAppender.add for one entry: build the header from the
file info, append the separator for directories, and for a regular file with
link count above one either rewrite the header into a zero-size hardlink
pointing at the recorded first name, or record this name as the first for its
inode. The body is written exactly when the final type flag is TypeReg. -/
def addEntry (hardLinks : List (Nat × Str)) (e : WalkEntry) : Member × List (Nat × Str) :=
  let name := if e.ftype = .dir then fmtDir e.name else e.name
  let hdr0 : Member :=
    { name := name
      typeflag := flagOfType e.ftype
      linkname := []
      size := if e.ftype = .regular then e.size else 0
      hasBody := false }
  let step :=
    if e.ftype = .regular ∧ 1 < e.nlink then
      match lookupInode hardLinks e.inode with
      | some oldpath =>
          ({ hdr0 with typeflag := .link, linkname := oldpath, size := 0 }, hardLinks)
      | none => (hdr0, (e.inode, name) :: hardLinks)
    else (hdr0, hardLinks)
  ({ step.1 with hasBody := step.1.typeflag = .reg }, step.2)

/-- Walk of tarDir over a list of entries, threading the hardlink table and
emitting one member per entry in walk order. -/
def tarAddAll (hardLinks : List (Nat × Str)) : List WalkEntry → List Member
  | [] => []
  | e :: es =>
      let r := addEntry hardLinks e
      r.1 :: tarAddAll r.2 es

/-- Members of the archive built from a walk, starting from the empty
hardlink table created in tarDir (sz.go line 774). -/
def tarDirMembers (es : List WalkEntry) : List Member :=
  tarAddAll [] es

/-- Entry-member pairs of a build restricted to the regular files of one
inode, in walk order. -/
def relevantPairs (ino : Nat) (es : List WalkEntry) (ms : List Member) :
    List (WalkEntry × Member) :=
  (es.zip ms).filter (fun p => p.1.ftype = FType.regular ∧ p.1.inode = ino)

/-- Dedup shape of the members emitted for the regular files of one inode:
the first is a regular member carrying the body, named and sized after its
entry, and every later one is a zero-size bodyless hardlink member whose
link target is the first member. -/
def DedupOk (e0 : WalkEntry) (m0 : Member) (rest : List (WalkEntry × Member)) : Prop :=
  m0.typeflag = TFlag.reg ∧ m0.hasBody = true ∧ m0.name = e0.name ∧ m0.size = e0.size ∧
    ∀ p ∈ rest,
      p.2.typeflag = TFlag.link ∧ p.2.size = 0 ∧ p.2.hasBody = false ∧
        p.2.linkname = m0.name

/-! ## tarSetHeader, devmajor, devminor (sz.go lines 917-946) -/

/-- Block device bit of the stat mode. -/
def S_IFBLK : Nat := 0x6000

/-- Character device bit of the stat mode. -/
def S_IFCHR : Nat := 0x2000

/-- File type mask of the stat mode. -/
def S_IFMT : Nat := 0xF000

/-- Fields of syscall.Stat_t the function reads (all unsigned). -/
structure StatT where
  mode : Nat
  nlink : Nat
  ino : Nat
  rdev : Nat
  deriving DecidableEq

/-- Device number fields of the tar header; none models a field the function
never assigned (tar.FileInfoHeader leaves both at their zero value). -/
structure DevFields where
  devmajorField : Option Nat
  devminorField : Option Nat
  deriving DecidableEq

/-- Translation of devmajor: high twelve bits above an eight-bit shift. -/
def devmajor (device : Nat) : Nat :=
  (device >>> 8) &&& 0xfff

/-- Translation of devminor: low byte combined with a second twelve-bit field
above bit twelve. -/
def devminor (device : Nat) : Nat :=
  (device &&& 0xff) ||| ((device >>> 12) &&& 0xfff00)

/-- Translation of tarSetHeader: return the link count truncated to uint32,
the inode, and the device fields — assigned from Rdev exactly when the mode
has a bit in common with S_IFBLK or with S_IFCHR, left unset otherwise. -/
def tarSetHeader (s : StatT) : Nat × Nat × DevFields :=
  (s.nlink % 2 ^ 32, s.ino,
    if s.mode &&& S_IFBLK ≠ 0 ∨ s.mode &&& S_IFCHR ≠ 0 then
      { devmajorField := some (devmajor s.rdev)
        devminorField := some (devminor s.rdev) }
    else { devmajorField := none, devminorField := none })

/-! ## TarExtractor member handling (sz.go lines 649-701) -/

/-- Worker for strings.Index: first position where pat is a prefix. -/
def indexOfGo (pat : Str) : Str → Nat → Option Nat
  | [], i => if pat.isPrefixOf [] then some i else none
  | c :: rest, i =>
      if pat.isPrefixOf (c :: rest) then some i else indexOfGo pat rest (i + 1)

/-- Translation of strings.Replace with n = 1: replace the leftmost
occurrence of old by new, the string unchanged when old equals new or does
not occur. -/
def replaceOnce (s old new : Str) : Str :=
  if old == new then s
  else
    match indexOfGo old s 0 with
    | none => s
    | some i => s.take i ++ new ++ s.drop (i + old.length)

/-- Filesystem action untar performs for one member. -/
inductive UntarAction
  | mkdirAll (name : Str) (mode : Nat)
  | writeFile (name : Str) (mode : Nat)
  | hardlink (target newname : Str)
  | symlink (target newname : Str)
  | skip
  deriving DecidableEq

/-- Header fields of one tar member that untar reads. -/
structure THeader where
  name : Str
  linkname : Str
  typeflag : TFlag
  mode : Nat
  deriving DecidableEq

/-- Translation of the member switch in untar: when the extraction root was
renamed, substitute the first occurrence of the original root in the member
name; hard links and symlinks pass hdr.Linkname to the creating call
verbatim (os.Link(hdr.Linkname, name), sz.go line 688). -/
def untarMemberAction (originName dstName : Str) (hdr : THeader) : UntarAction :=
  let name :=
    if dstName == originName then hdr.name
    else replaceOnce hdr.name originName dstName
  match hdr.typeflag with
  | .dirf => .mkdirAll name hdr.mode
  | .reg => .writeFile name hdr.mode
  | .link => .hardlink hdr.linkname name
  | .sym => .symlink hdr.linkname name
  | .other => .skip

/-- Actions of a whole extraction pass over the member list. -/
def untarActions (originName dstName : Str) (hdrs : List THeader) : List UntarAction :=
  hdrs.map (untarMemberAction originName dstName)

/-! ## Lemmas about the block codec -/

theorem chunksOfGo_flatten (n : Nat) (hn : 0 < n) :
    ∀ (fuel : Nat) (xs : List Nat), xs.length ≤ fuel →
      (chunksOfGo n fuel xs).flatten = xs := by
  intro fuel
  induction fuel with
  | zero =>
      intro xs h
      match xs with
      | [] => rfl
      | x :: xs => simp at h
  | succ fuel ih =>
      intro xs h
      match xs with
      | [] => rfl
      | x :: xs =>
          rw [chunksOfGo, List.flatten_cons, ih ((x :: xs).drop n) ?hlen,
            List.take_append_drop]
          case hlen =>
            rw [List.length_drop]
            simp only [List.length_cons] at h ⊢
            omega

theorem mem_chunksOfGo (n : Nat) (hn : 0 < n) :
    ∀ (fuel : Nat) (xs : List Nat) (c : List Nat), c ∈ chunksOfGo n fuel xs →
      c ≠ [] ∧ c.length ≤ n := by
  intro fuel
  induction fuel with
  | zero =>
      intro xs c hc
      match xs with
      | [] => simp [chunksOfGo] at hc
      | _ :: _ => simp [chunksOfGo] at hc
  | succ fuel ih =>
      intro xs c hc
      match xs with
      | [] => simp [chunksOfGo] at hc
      | x :: xs =>
          rw [chunksOfGo] at hc
          rcases List.mem_cons.mp hc with h | h
          · subst h
            obtain ⟨m, rfl⟩ : ∃ m, n = m + 1 := ⟨n - 1, by omega⟩
            refine ⟨by simp [List.take_cons], ?_⟩
            rw [List.length_take]
            omega
          · exact ih _ _ h

theorem chunksOf_flatten (n : Nat) (hn : 0 < n) (xs : List Nat) :
    (chunksOf n xs).flatten = xs :=
  chunksOfGo_flatten n hn xs.length xs le_rfl

theorem mem_chunksOf {n : Nat} (hn : 0 < n) {xs c : List Nat}
    (hc : c ∈ chunksOf n xs) : c ≠ [] ∧ c.length ≤ n :=
  mem_chunksOfGo n hn xs.length xs c hc

theorem flatMap_chunksOf_flatten (n : Nat) (hn : 0 < n) (ws : List (List Nat)) :
    (ws.flatMap (chunksOf n)).flatten = ws.flatten := by
  induction ws with
  | nil => rfl
  | cons w ws ih =>
      rw [List.flatMap_cons, List.flatten_append, ih, chunksOf_flatten n hn,
        List.flatten_cons]

theorem length_le_flatMap_encodeChunk (chunks : List (List Nat)) :
    chunks.length ≤ (chunks.flatMap encodeChunk).length := by
  induction chunks with
  | nil => simp
  | cons c cs ih =>
      rw [List.flatMap_cons, List.length_append]
      simp only [encodeChunk, List.length_cons]
      omega

theorem decodeGo_flatMap_encodeChunk :
    ∀ (chunks : List (List Nat)) (fuel : Nat),
      (∀ c ∈ chunks, c ≠ [] ∧ c.length ≤ 65536) →
      chunks.length ≤ fuel →
      decodeGo fuel (chunks.flatMap encodeChunk) = some chunks.flatten := by
  intro chunks
  induction chunks with
  | nil =>
      intro fuel _ _
      match fuel with
      | 0 => rfl
      | _ + 1 => rfl
  | cons c cs ih =>
      intro fuel hwf hfuel
      obtain ⟨hc1, hc2⟩ := hwf c (List.mem_cons_self c cs)
      have hcpos : 0 < c.length := List.length_pos.mpr hc1
      match fuel with
      | 0 => simp at hfuel
      | fuel + 1 =>
          have hflat : (c :: cs).flatMap encodeChunk
              = c.length % 256 :: c.length / 256 % 256 :: c.length / 65536 % 256 ::
                  (c ++ cs.flatMap encodeChunk) := by
            rw [List.flatMap_cons]
            rfl
          rw [hflat, decodeGo]
          have hlen : c.length % 256 + 256 * (c.length / 256 % 256)
              + 65536 * (c.length / 65536 % 256) = c.length := by
            omega
          simp only [hlen]
          rw [if_neg (by omega), if_neg (by rw [List.length_append]; omega),
            List.drop_left, List.take_left,
            ih fuel (fun d hd => hwf d (List.mem_cons_of_mem c hd)) (by simp at hfuel ⊢; omega),
            List.flatten_cons]

theorem isPrefixOf_append_self {α : Type} [BEq α] [LawfulBEq α] (l t : List α) :
    l.isPrefixOf (l ++ t) = true :=
  List.isPrefixOf_iff_prefix.mpr (List.prefix_append l t)

theorem szDecode_szEncodeWrites (ws : List (List Nat)) :
    szDecode (szEncodeWrites ws) = some ws.flatten := by
  by_cases hch : ws.flatMap (chunksOf 65536) = []
  · rw [szEncodeWrites, if_pos hch, szDecode, if_pos rfl]
    have h := flatMap_chunksOf_flatten 65536 (by omega) ws
    rw [← h, hch]
    rfl
  · rw [szEncodeWrites, if_neg hch]
    have hne : szSig ++ (ws.flatMap (chunksOf 65536)).flatMap encodeChunk ≠ [] := by
      simp [szSig]
    rw [szDecode, if_neg hne, if_pos (isPrefixOf_append_self szSig _)]
    have h10 : szSig.length = 10 := rfl
    rw [show (10 : Nat) = szSig.length from rfl, List.drop_left]
    rw [decodeGo_flatMap_encodeChunk _ _ ?wf ?fuel, flatMap_chunksOf_flatten 65536 (by omega)]
    case wf =>
      intro d hd
      obtain ⟨w, _, hdw⟩ := List.mem_flatMap.mp hd
      exact mem_chunksOf (by omega) hdw
    case fuel =>
      have := length_le_flatMap_encodeChunk (ws.flatMap (chunksOf 65536))
      rw [List.length_append]
      omega

/-- C1: for every regular file F, decompressing the result of compressing F
(unsnap applied to the content produced by snap, or by snapSafe) yields the
contents of F byte for byte. The codec is the spec-modelled block format. -/
theorem C1_roundtrip (F : List Nat) :
    unsnapContent (snapContent F) = some F ∧
    unsnapContent (snapSafeContent F) = some F := by
  constructor
  · rw [snapContent, unsnapContent, szDecode_szEncodeWrites]
    simp
  · rw [snapSafeContent, unsnapContent, szDecode_szEncodeWrites,
      chunksOf_flatten 32768 (by omega)]

/-- C3: evaluating the code at the failing scenario — the fast path fails at
the compression write after ReadAll has consumed the source handle, so the
deferred snapSafe fallback copies from the end-of-file offset and its
destination decompresses to the empty byte string, not to the source. -/
theorem C3_fallback_bug :
    unsnapContent (snapFallbackContent [1, 2, 3]) = some [] ∧
    unsnapContent (snapFallbackContent [1, 2, 3]) ≠ some [1, 2, 3] := by
  constructor
  · rfl
  · decide

/-! ## C2: the fast-to-safe fallback -/

/-- C2, counterexample: when the initial Stat of the fast path fails, snap
returns the fast-path error with a nil destination handle; the compression
branch of analyze then panics dereferencing that handle, so snapSafe is never
attempted (zero attempts) and no safe-path error is surfaced. -/
theorem C2_counterexample :
    (snapRun envFastStatFail).2.1 = some CErr.fastStat ∧
    analyzeCompress envFastStatFail = (COutcome.panicked, 0) ∧
    ¬ 1 ≤ (analyzeCompress envFastStatFail).2 := by
  refine ⟨rfl, rfl, ?_⟩
  decide

/-- C2, amended: when the fast path fails after its destination has been
created — at ReadAll or at the compression write — snapSafe is attempted at
least once on the same source, and every error the compression branch
surfaces is a safe-path error, never a fast-path one (a safe-path failure
before its own destination exists escalates to a panic rather than an
error). Failures of the initial Stat or of create are returned as fast-path
errors without a completed retry, as the counterexample shows. -/
theorem C2_fallback_amended (env : SnapEnv)
    (h1 : env.fastStatFails = false) (h2 : env.fastCreateFails = false)
    (h3 : env.fastReadFails = true ∨ env.fastWriteFails = true) :
    1 ≤ (analyzeCompress env).2 ∧
    surfacedErrIsSafe (analyzeCompress env).1 = true := by
  obtain ⟨a1, a2, a3, a4, a5, b1, b2, b3, b4, b5⟩ := env
  simp only at h1 h2 h3
  subst h1
  subst h2
  rcases h3 with h | h
  · subst h
    cases a4 <;> cases a5 <;> cases b1 <;> cases b2 <;> cases b3 <;> cases b4 <;>
      cases b5 <;> decide
  · subst h
    cases a3 <;> cases a5 <;> cases b1 <;> cases b2 <;> cases b3 <;> cases b4 <;>
      cases b5 <;> decide

/-- Witness for C2 at a concrete environment: only ReadAll of the fast path
fails, the safe retry succeeds. -/
theorem C2_fallback_witness :
    1 ≤ (analyzeCompress envFastReadFail).2 ∧
    surfacedErrIsSafe (analyzeCompress envFastReadFail).1 = true :=
  C2_fallback_amended envFastReadFail rfl rfl (Or.inl rfl)

/-! ## C5: the content signatures -/

/-- C5: isSz is true exactly when at least 10 bytes are readable at offset 0
and equal the snappy signature, and isTar is true exactly when 5 bytes are
readable at offset 257 and equal ustar; both return false (the read error is
discarded) on any shorter source or any single-position mismatch. -/
theorem C5_signatures (f : List Nat) :
    (isSz f = true ↔ 10 ≤ f.length ∧ f.take 10 = szSig) ∧
    (isTar f = true ↔ 262 ≤ f.length ∧ (f.drop 257).take 5 = tarSig) := by
  constructor
  · rw [isSz, readAt, List.drop_zero]
    by_cases h : 10 ≤ f.length
    · rw [if_neg (by rw [List.length_take]; omega)]
      simp [h]
    · rw [if_pos (by rw [List.length_take]; omega)]
      simp [h]
  · rw [isTar, readAt]
    by_cases h : 262 ≤ f.length
    · rw [if_neg (by rw [List.length_take, List.length_drop]; omega)]
      simp [h]
    · rw [if_pos (by rw [List.length_take, List.length_drop]; omega)]
      simp [h]

/-! ## C9: filter drops everything -/

theorem slcHas_self_mem {slc : List Str} {s : Str} (h : s ∈ slc) :
    slcHas slc [s] = true := by
  rw [slcHas, List.any_eq_true]
  exact ⟨s, h, by simp⟩

theorem filterGo_eq_nil {slc : List Str} :
    ∀ l : List Str, (∀ s ∈ l, s ∈ slc) → filterGo slc l = [] := by
  intro l
  induction l with
  | nil => intro _; rfl
  | cons s rest ih =>
      intro h
      rw [filterGo, if_pos (slcHas_self_mem (h s (List.mem_cons_self s rest)))]
      exact ih (fun x hx => h x (List.mem_cons_of_mem s hx))

/-- C9: filter tests membership of each element in the input slice itself
rather than in args, so it always returns the empty slice; consequently in
quiet mode the target-file list computed by flags is empty and no input is
processed. -/
theorem C9_filter_empties :
    (∀ (slc args : List Str), filter slc args = []) ∧
    (∀ (osArgs : List Str) (dstArchive : Str),
      flagsTrgtFiles osArgs true dstArchive = []) := by
  have hf : ∀ (slc args : List Str), filter slc args = [] := by
    intro slc args
    rw [filter]
    exact filterGo_eq_nil slc (fun s hs => hs)
  refine ⟨hf, ?_⟩
  intro osArgs dst
  by_cases hd : dst = ([] : Str)
  · simp [flagsTrgtFiles, hd, hf]
  · simp [flagsTrgtFiles, hd, hf]

/-! ## C4: hardlink deduplication in the tar builder -/

theorem addEntry_lookup_preserved (hl : List (Nat × Str)) (e : WalkEntry) (ino : Nat)
    (h : ¬(e.ftype = FType.regular ∧ e.inode = ino)) :
    lookupInode (addEntry hl e).2 ino = lookupInode hl ino := by
  simp only [addEntry]
  by_cases g : e.ftype = FType.regular ∧ 1 < e.nlink
  · rw [if_pos g]
    cases hlk : lookupInode hl e.inode with
    | some old => rfl
    | none =>
        have hne : e.inode ≠ ino := fun hh => h ⟨g.1, hh⟩
        simp [lookupInode, hne]
  · rw [if_neg g]

theorem relevantPairs_cons (ino : Nat) (e : WalkEntry) (m : Member)
    (es : List WalkEntry) (ms : List Member) :
    relevantPairs ino (e :: es) (m :: ms)
      = if e.ftype = FType.regular ∧ e.inode = ino
        then (e, m) :: relevantPairs ino es ms
        else relevantPairs ino es ms := by
  by_cases h : e.ftype = FType.regular ∧ e.inode = ino
  · simp [relevantPairs, List.filter_cons, h]
  · simp [relevantPairs, List.filter_cons, h]

theorem addEntry_linked (hl : List (Nat × Str)) (e : WalkEntry) (nm : Str)
    (hreg : e.ftype = FType.regular) (hnl : 1 < e.nlink)
    (hlk : lookupInode hl e.inode = some nm) :
    addEntry hl e = (⟨e.name, TFlag.link, nm, 0, false⟩, hl) := by
  simp [addEntry, hreg, hnl, hlk, flagOfType]

theorem addEntry_first (hl : List (Nat × Str)) (e : WalkEntry)
    (hreg : e.ftype = FType.regular) (hnl : 1 < e.nlink)
    (hlk : lookupInode hl e.inode = none) :
    addEntry hl e = (⟨e.name, TFlag.reg, [], e.size, true⟩, (e.inode, e.name) :: hl) := by
  simp [addEntry, hreg, hnl, hlk, flagOfType]

theorem tarAddAll_linked (ino : Nat) (nm : Str) :
    ∀ (es : List WalkEntry) (hl : List (Nat × Str)),
      lookupInode hl ino = some nm →
      (∀ e ∈ es, e.inode = ino → e.ftype = FType.regular → 1 < e.nlink) →
      ∀ p ∈ relevantPairs ino es (tarAddAll hl es),
        p.2.typeflag = TFlag.link ∧ p.2.size = 0 ∧ p.2.hasBody = false ∧
          p.2.linkname = nm := by
  intro es
  induction es with
  | nil =>
      intro hl _ _ p hp
      simp [relevantPairs, tarAddAll] at hp
  | cons e es ih =>
      intro hl hlk hn p hp
      rw [show tarAddAll hl (e :: es)
            = (addEntry hl e).1 :: tarAddAll (addEntry hl e).2 es from rfl,
        relevantPairs_cons] at hp
      have hn' : ∀ x ∈ es, x.inode = ino → x.ftype = FType.regular → 1 < x.nlink :=
        fun x hx => hn x (List.mem_cons_of_mem e hx)
      by_cases hc : e.ftype = FType.regular ∧ e.inode = ino
      · rw [if_pos hc] at hp
        have hnl : 1 < e.nlink := hn e (List.mem_cons_self e es) hc.2 hc.1
        have hlk2 : lookupInode hl e.inode = some nm := by rw [hc.2]; exact hlk
        rw [addEntry_linked hl e nm hc.1 hnl hlk2] at hp
        rcases List.mem_cons.mp hp with h | h
        · subst h
          exact ⟨rfl, rfl, rfl, rfl⟩
        · exact ih hl hlk hn' p h
      · rw [if_neg hc] at hp
        refine ih (addEntry hl e).2 ?_ hn' p hp
        rw [addEntry_lookup_preserved hl e ino hc]
        exact hlk

theorem tarAddAll_fresh (ino : Nat) :
    ∀ (es : List WalkEntry) (hl : List (Nat × Str)),
      lookupInode hl ino = none →
      (∀ e ∈ es, e.inode = ino → e.ftype = FType.regular → 1 < e.nlink) →
      ∀ (e0 : WalkEntry) (m0 : Member) (rest : List (WalkEntry × Member)),
        relevantPairs ino es (tarAddAll hl es) = (e0, m0) :: rest →
        DedupOk e0 m0 rest := by
  intro es
  induction es with
  | nil =>
      intro hl _ _ e0 m0 rest h
      simp [relevantPairs, tarAddAll] at h
  | cons e es ih =>
      intro hl hlk hn e0 m0 rest h
      rw [show tarAddAll hl (e :: es)
            = (addEntry hl e).1 :: tarAddAll (addEntry hl e).2 es from rfl,
        relevantPairs_cons] at h
      have hn' : ∀ x ∈ es, x.inode = ino → x.ftype = FType.regular → 1 < x.nlink :=
        fun x hx => hn x (List.mem_cons_of_mem e hx)
      by_cases hc : e.ftype = FType.regular ∧ e.inode = ino
      · rw [if_pos hc] at h
        have hnl : 1 < e.nlink := hn e (List.mem_cons_self e es) hc.2 hc.1
        have hlk2 : lookupInode hl e.inode = none := by rw [hc.2]; exact hlk
        rw [addEntry_first hl e hc.1 hnl hlk2] at h
        injection h with h1 h2
        injection h1 with he hm
        subst he
        subst hm
        subst h2
        refine ⟨rfl, rfl, rfl, rfl, ?_⟩
        apply tarAddAll_linked ino e.name es ((e.inode, e.name) :: hl) ?_ hn'
        rw [lookupInode, if_pos hc.2]
      · rw [if_neg hc] at h
        refine ih (addEntry hl e).2 ?_ hn' e0 m0 rest h
        rw [addEntry_lookup_preserved hl e ino hc]
        exact hlk

/-- C4: in one directory build, for every inode whose regular files have link
count above one, the first regular file visited with that inode becomes the
one regular member carrying the body, and every later file with that inode
becomes a zero-size hardlink member whose Linkname is the first member's
name, in walk order. -/
theorem C4_hardlink_dedup (es : List WalkEntry) (ino : Nat)
    (e0 : WalkEntry) (m0 : Member) (rest : List (WalkEntry × Member))
    (hn : ∀ e ∈ es, e.inode = ino → e.ftype = FType.regular → 1 < e.nlink)
    (h : relevantPairs ino es (tarDirMembers es) = (e0, m0) :: rest) :
    DedupOk e0 m0 rest :=
  tarAddAll_fresh ino es [] rfl hn e0 m0 rest h

/-- Witness for C4: three regular files sharing inode 7 with link count 3
yield one regular member with the body and two zero-size hardlink members
referencing it, in walk order. -/
theorem C4_hardlink_dedup_witness :
    DedupOk ⟨['a'], FType.regular, 3, 7, 2⟩
      ⟨['a'], TFlag.reg, [], 2, true⟩
      [(⟨['b'], FType.regular, 3, 7, 2⟩, ⟨['b'], TFlag.link, ['a'], 0, false⟩),
       (⟨['c'], FType.regular, 3, 7, 2⟩, ⟨['c'], TFlag.link, ['a'], 0, false⟩)] :=
  C4_hardlink_dedup
    [⟨['a'], FType.regular, 3, 7, 2⟩, ⟨['b'], FType.regular, 3, 7, 2⟩,
     ⟨['c'], FType.regular, 3, 7, 2⟩] 7 _ _ _
    (by decide) (by decide)

/-! ## C6: genUnusedFilename -/

theorem genLoop_allTrue (base ext orig : Str) :
    ∀ (fuel i : Nat), genLoop (fun _ => true) base ext orig i fuel = orig := by
  intro fuel
  induction fuel with
  | zero => intro i; rfl
  | succ fuel ih =>
      intro i
      rw [genLoop, if_pos rfl]
      exact ih (i + 1)

theorem genLoop_free (fs : Str → Bool) (base ext orig : Str) :
    ∀ (fuel i : Nat),
      (∃ j, i ≤ j ∧ j < i + fuel ∧ fs (testname base ext j) = false) →
      fs (genLoop fs base ext orig i fuel) = false := by
  intro fuel
  induction fuel with
  | zero =>
      intro i h
      obtain ⟨j, h1, h2, _⟩ := h
      omega
  | succ fuel ih =>
      intro i h
      rw [genLoop]
      cases hfi : fs (testname base ext i) with
      | false =>
          rw [if_neg Bool.false_ne_true]
          exact hfi
      | true =>
          rw [if_pos rfl]
          refine ih (i + 1) ?_
          obtain ⟨j, h1, h2, h3⟩ := h
          have hji : j ≠ i := by
            intro hh
            rw [hh, hfi] at h3
            simp at h3
          exact ⟨j, by omega, by omega, h3⟩

/-- C6, counterexample: in a filesystem state where every path exists, the
probe returns the original candidate unchanged after the loop falls through,
so the returned path exists at call time. -/
theorem C6_counterexample :
    genUnusedFilename mimeBuiltin (fun _ => true) ['a'] = ['a'] ∧
    (fun (_ : Str) => true) (genUnusedFilename mimeBuiltin (fun _ => true) ['a']) = true := by
  constructor
  · rw [genUnusedFilename, if_pos rfl]
    exact genLoop_allTrue _ _ _ _ 1
  · rfl

/-- C6, amended: whenever the candidate itself is free or some numbered
variant below the loop bound is free, genUnusedFilename yields a path that
does not exist at call time, and probing its own result again returns the
same value (idempotent probe); when the candidate and every numbered variant
up to the bound exist, the original existing candidate is returned instead. -/
theorem C6_allocate_amended (mimeKnown fs : Str → Bool) (name : Str)
    (h : fs name = false ∨
      ∃ j, 1 ≤ j ∧ j < 20091110230000 ∧
        fs (testname (splitExt mimeKnown name).1 (splitExt mimeKnown name).2 j) = false) :
    fs (genUnusedFilename mimeKnown fs name) = false ∧
    genUnusedFilename mimeKnown fs (genUnusedFilename mimeKnown fs name)
      = genUnusedFilename mimeKnown fs name := by
  have part1 : fs (genUnusedFilename mimeKnown fs name) = false := by
    cases hname : fs name with
    | false =>
        rw [genUnusedFilename, if_neg (by simp [hname])]
        exact hname
    | true =>
        rw [genUnusedFilename, if_pos hname]
        rcases h with h | ⟨j, h1, h2, h3⟩
        · rw [hname] at h
          simp at h
        · exact genLoop_free fs _ _ name (20091110230000 - 1) 1 ⟨j, h1, by omega, h3⟩
  refine ⟨part1, ?_⟩
  rw [genUnusedFilename, if_neg (by simp [part1])]

/-- Witness for C6 at a concrete input: only the path a exists, the first
probe a(1) is free, is returned, and probing it again is stable. -/
theorem C6_allocate_witness :
    (fun s => s == (['a'] : Str))
        (genUnusedFilename mimeBuiltin (fun s => s == (['a'] : Str)) ['a']) = false ∧
    genUnusedFilename mimeBuiltin (fun s => s == (['a'] : Str))
        (genUnusedFilename mimeBuiltin (fun s => s == (['a'] : Str)) ['a'])
      = genUnusedFilename mimeBuiltin (fun s => s == (['a'] : Str)) ['a'] :=
  C6_allocate_amended mimeBuiltin (fun s => s == (['a'] : Str)) ['a']
    (Or.inr ⟨1, le_refl 1, by decide, by decide⟩)

/-! ## C7: the extension stripping rule of splitExt -/

theorem fpExtGo_suffix :
    ∀ (rev acc : Str), fpExtGo rev acc ≠ [] →
      fpExtGo rev acc <:+ (rev.reverse ++ acc) := by
  intro rev
  induction rev with
  | nil => intro acc h; exact absurd rfl h
  | cons c rest ih =>
      intro acc h
      rw [fpExtGo] at h ⊢
      by_cases hs : isSep c
      · rw [if_pos hs] at h
        exact absurd rfl h
      · rw [if_neg hs] at h ⊢
        by_cases hd : c == '.'
        · rw [if_pos hd] at h ⊢
          rw [List.reverse_cons, List.append_assoc]
          exact List.suffix_append rest.reverse ([c] ++ acc)
        · rw [if_neg hd] at h ⊢
          have := ih (c :: acc) h
          rw [List.reverse_cons, List.append_assoc]
          exact this

theorem fpExt_suffix {p : Str} (h : fpExt p ≠ []) : fpExt p <:+ p := by
  have := fpExtGo_suffix p.reverse [] h
  rw [List.append_nil, List.reverse_reverse] at this
  exact this

theorem trimSuffix_length_lt {s t : Str} (hsuf : t <:+ s) (hne : t ≠ []) :
    (trimSuffix s t).length < s.length := by
  rw [trimSuffix, if_pos (List.isSuffixOf_iff_suffix.mpr hsuf), List.length_take]
  have h1 : t.length ≤ s.length := hsuf.length_le
  have h2 : 0 < t.length := List.length_pos.mpr hne
  have h3 : 0 < s.length := by omega
  omega

theorem splitExtGo_spec (mimeKnown : Str → Bool) :
    ∀ (fuel : Nat) (base : Str), base.length < fuel →
      ∀ (ext b e : Str), splitExtGo mimeKnown fuel base ext = (b, e) →
        ∃ e0, e = e0 ++ ext ∧ SplitExtSpec mimeKnown base (b, e0) := by
  intro fuel
  induction fuel with
  | zero => intro base h; omega
  | succ fuel ih =>
      intro base hlen ext b e heq
      rw [splitExtGo] at heq
      by_cases h1 : fpExt base = []
      · rw [if_pos h1] at heq
        injection heq with hb he
        subst hb
        subst he
        exact ⟨[], rfl, SplitExtSpec.stop base (Or.inl h1)⟩
      · rw [if_neg h1] at heq
        by_cases h2 : mimeKnown (fpExt base) = false ∧ szExtAllow (fpExt base) = false
        · rw [if_pos h2] at heq
          injection heq with hb he
          subst hb
          subst he
          refine ⟨[], rfl, SplitExtSpec.stop base (Or.inr ?_)⟩
          rw [strippable, h2.1, h2.2]
          rfl
        · rw [if_neg h2] at heq
          have hstrip : strippable mimeKnown (fpExt base) = true := by
            rw [strippable]
            cases hm : mimeKnown (fpExt base) with
            | true => rfl
            | false =>
                cases ha : szExtAllow (fpExt base) with
                | true => rfl
                | false => exact absurd ⟨hm, ha⟩ h2
          have hlt : (trimSuffix base (fpExt base)).length < fuel := by
            have := trimSuffix_length_lt (fpExt_suffix h1) h1
            omega
          obtain ⟨e0, he0, hspec⟩ := ih (trimSuffix base (fpExt base)) hlt _ b e heq
          refine ⟨e0 ++ fpExt base, ?_, ?_⟩
          · rw [he0, List.append_assoc]
          · exact SplitExtSpec.strip base b e0 h1 hstrip hspec

/-- C7, amended: splitExt strips trailing extensions into the extension chain
exactly while each is either recognized as a known media type or one of
.tar, .sz, .tar.sz; multi-part suffixes like .tar.sz are stripped unit by
unit, a recognized extension such as .txt moves into the chain (so the
numeric disambiguator lands before it), and an extension that is both
unrecognized and off the allow-list terminates the strip. -/
theorem C7_splitExt_amended (mimeKnown : Str → Bool) (name : Str) :
    SplitExtSpec mimeKnown (clean name) (splitExt mimeKnown name) := by
  have h : splitExtGo mimeKnown ((clean name).length + 1) (clean name) []
      = splitExt mimeKnown name := rfl
  obtain ⟨e0, he0, hspec⟩ :=
    splitExtGo_spec mimeKnown ((clean name).length + 1) (clean name) (by omega) []
      (splitExt mimeKnown name).1 (splitExt mimeKnown name).2 (by rw [h])
  rw [List.append_nil] at he0
  have : splitExt mimeKnown name = ((splitExt mimeKnown name).1, e0) := by
    rw [← he0]
  rw [this]
  exact hspec

/-- C7, counterexample: with the builtin Go media-type table, the recognized
extension .html is stripped into the chain by the code — the claim-worded
variant keeps it in the base — so on the input a.html the two disagree, and
the numeric disambiguator is placed before .html, not after it. -/
theorem C7_counterexample :
    splitExtClaim mimeBuiltin ['a', '.', 'h', 't', 'm', 'l']
      ≠ splitExt mimeBuiltin ['a', '.', 'h', 't', 'm', 'l'] ∧
    genUnusedFilename mimeBuiltin
        (fun s => s == (['a', '.', 'h', 't', 'm', 'l'] : Str))
        ['a', '.', 'h', 't', 'm', 'l']
      = ['a', '(', '1', ')', '.', 'h', 't', 'm', 'l'] := by
  constructor
  · decide
  · decide

/-! ## C8: device number encoding in tarSetHeader -/

theorem and_of_ifmt_chr {m : Nat} (h : m &&& S_IFMT = S_IFCHR) :
    m &&& S_IFCHR = S_IFCHR := by
  have hsub : S_IFMT &&& S_IFCHR = S_IFCHR := by decide
  calc m &&& S_IFCHR = m &&& (S_IFMT &&& S_IFCHR) := by rw [hsub]
    _ = m &&& S_IFMT &&& S_IFCHR := (Nat.and_assoc m S_IFMT S_IFCHR).symm
    _ = S_IFCHR &&& S_IFCHR := by rw [h]
    _ = S_IFCHR := by decide

theorem and_of_ifmt_blk {m : Nat} (h : m &&& S_IFMT = S_IFBLK) :
    m &&& S_IFBLK = S_IFBLK := by
  have hsub : S_IFMT &&& S_IFBLK = S_IFBLK := by decide
  calc m &&& S_IFBLK = m &&& (S_IFMT &&& S_IFBLK) := by rw [hsub]
    _ = m &&& S_IFMT &&& S_IFBLK := (Nat.and_assoc m S_IFMT S_IFBLK).symm
    _ = S_IFBLK &&& S_IFBLK := by rw [h]
    _ = S_IFBLK := by decide

/-- C8, amended: for every character or block device the header device
numbers are encoded as major = (d >>> 8) &&& 0xfff and
minor = (d &&& 0xff) ||| ((d >>> 12) &&& 0xfff00); the fields are left unset
exactly when the mode shares no bit with S_IFBLK or S_IFCHR (regular files
and FIFOs) — directories, symlinks and sockets also get them assigned, as
the counterexample shows. -/
theorem C8_dev_amended (s : StatT) :
    (s.mode &&& S_IFMT = S_IFCHR ∨ s.mode &&& S_IFMT = S_IFBLK →
      (tarSetHeader s).2.2
        = ⟨some ((s.rdev >>> 8) &&& 0xfff),
           some ((s.rdev &&& 0xff) ||| ((s.rdev >>> 12) &&& 0xfff00))⟩) ∧
    (s.mode &&& S_IFBLK = 0 ∧ s.mode &&& S_IFCHR = 0 →
      (tarSetHeader s).2.2 = ⟨none, none⟩) := by
  constructor
  · intro hd
    have hguard : s.mode &&& S_IFBLK ≠ 0 ∨ s.mode &&& S_IFCHR ≠ 0 := by
      rcases hd with h | h
      · right
        rw [and_of_ifmt_chr h]
        decide
      · left
        rw [and_of_ifmt_blk h]
        decide
    simp only [tarSetHeader]
    rw [if_pos hguard, devmajor, devminor]
  · intro hz
    simp only [tarSetHeader]
    rw [if_neg (fun hc => hc.elim (fun ha => ha hz.1) (fun hb => hb hz.2))]

/-- C8, counterexample: a directory (mode 040755) is not a character or block
device, yet the source guard mode &&& S_IFBLK ≠ 0 fires on the directory bit
and the device fields are assigned rather than left unset. -/
theorem C8_counterexample :
    (tarSetHeader ⟨0x41ED, 1, 2, 5⟩).2.2 ≠ ⟨none, none⟩ ∧
    (0x41ED : Nat) &&& S_IFMT ≠ S_IFCHR ∧ (0x41ED : Nat) &&& S_IFMT ≠ S_IFBLK := by
  refine ⟨?_, by decide, by decide⟩
  decide

/-- Witness for C8 at concrete stats: a character device (mode 020644,
rdev 0x123) gets both encoded fields, a regular file (mode 0100644) gets
neither. -/
theorem C8_dev_witness :
    (tarSetHeader ⟨0x21A4, 1, 5, 0x123⟩).2.2
      = ⟨some (((0x123 : Nat) >>> 8) &&& 0xfff),
         some (((0x123 : Nat) &&& 0xff) ||| (((0x123 : Nat) >>> 12) &&& 0xfff00))⟩ ∧
    (tarSetHeader ⟨0x81A4, 1, 5, 0⟩).2.2 = ⟨none, none⟩ :=
  ⟨(C8_dev_amended ⟨0x21A4, 1, 5, 0x123⟩).1 (Or.inl (by decide)),
   (C8_dev_amended ⟨0x81A4, 1, 5, 0⟩).2 (by decide)⟩

/-! ## C10: hard link targets are not rewritten during extraction -/

theorem indexOfGo_of_prefix {pat s : Str} (h : pat.isPrefixOf s = true) (i : Nat) :
    indexOfGo pat s i = some i := by
  match s with
  | [] => rw [indexOfGo, if_pos h]
  | c :: rest => rw [indexOfGo, if_pos h]

theorem replaceOnce_append_prefix {origin dst : Str} (p : Str) (hne : origin ≠ dst) :
    replaceOnce (origin ++ p) origin dst = dst ++ p := by
  rw [replaceOnce, if_neg (by simp [hne]),
    indexOfGo_of_prefix (isPrefixOf_append_self origin p) 0]
  simp [List.drop_left]

/-- C10: during extraction with a renamed archive root, every hardlink member
has its own path rewritten by substituting the root prefix, but its Linkname
is passed to the link creation verbatim — the created link points at a path
under the original root name, not the allocated one. -/
theorem C10_linkname_verbatim (origin dst : Str) (hdrs : List THeader)
    (hdr : THeader) (p q : Str)
    (hmem : hdr ∈ hdrs) (hflag : hdr.typeflag = TFlag.link)
    (hne : origin ≠ dst)
    (hname : hdr.name = origin ++ p) (hlink : hdr.linkname = origin ++ q) :
    UntarAction.hardlink (origin ++ q) (dst ++ p) ∈ untarActions origin dst hdrs := by
  rw [untarActions]
  refine List.mem_map.mpr ⟨hdr, hmem, ?_⟩
  have hbe : (dst == origin) = false :=
    beq_eq_false_iff_ne.mpr (fun hh => hne hh.symm)
  simp only [untarMemberAction, hflag, hbe]
  rw [if_neg Bool.false_ne_true, hlink, hname, replaceOnce_append_prefix p hne]

/-- Witness for C10: an archive rooted at d extracted as d(1) creates the
hard link d(1)/b pointing at d/a, under the original root. -/
theorem C10_linkname_witness :
    UntarAction.hardlink (['d'] ++ ['/', 'a']) (['d', '(', '1', ')'] ++ ['/', 'b'])
      ∈ untarActions ['d'] ['d', '(', '1', ')']
          [⟨['d', '/', 'b'], ['d', '/', 'a'], TFlag.link, 493⟩] :=
  C10_linkname_verbatim ['d'] ['d', '(', '1', ')']
    [⟨['d', '/', 'b'], ['d', '/', 'a'], TFlag.link, 493⟩]
    ⟨['d', '/', 'b'], ['d', '/', 'a'], TFlag.link, 493⟩ ['/', 'b'] ['/', 'a']
    (List.mem_singleton.mpr rfl) rfl (by decide) rfl rfl

end Sz
